import Mathlib

/-!
Verification of the word-level text diff library (`src/index.ts`).

The TypeScript source is shallowly embedded: token sequences are `List String`,
machine numbers are `Nat`, the DOM nodes built by `formatDiffAsHtml` are an
inductive `DomNode` type whose serialization models `innerHTML`, and the
browser-environment check is an `Except` error.  The LCS dynamic-programming
table and the backtracking loop are written as structural recursions (row by
row) so that they compute by kernel reduction; the defining equations proved
below show they satisfy exactly the recurrences the source's loops implement.
-/

/-- `DiffResult` of `src/index.ts` (lines 1-4). -/
structure DiffResult where
  removedPositions : List Nat
  addedPositions : List Nat
deriving DecidableEq, Repr

/-- The tag of a `Change` (`src/index.ts` line 7). -/
inductive ChangeType where
  | added
  | removed
  | unchanged
deriving DecidableEq, Repr

/-- `Change` of `src/index.ts` (lines 6-11); the optional fields model the
optional `baseIndex`/`updatedIndex` properties. -/
structure Change where
  type : ChangeType
  word : String
  baseIndex : Option Nat := none
  updatedIndex : Option Nat := none
deriving DecidableEq, Repr

/-- `CompareOptions` of `src/index.ts` (lines 13-15); `none` models an absent
`ignoreCase` property. -/
structure CompareOptions where
  ignoreCase : Option Bool := none
deriving DecidableEq, Repr

/-- Accumulator loop for `tokenize`: walks the characters, collecting the
current word (in reverse) and cutting it at whitespace.  This models
`text.trim().split(/\s+/).filter((word) => word.length > 0)` from the source
(lines 42-49): splitting on maximal whitespace runs and discarding empty
pieces is the same as this character walk, and the `trim`/`filter` make
leading, trailing and repeated whitespace irrelevant. -/
def tokenizeGo : List Char → List Char → List String
  | [], cur => if cur.isEmpty then [] else [String.mk cur.reverse]
  | c :: rest, cur =>
    if c.isWhitespace then
      if cur.isEmpty then tokenizeGo rest []
      else String.mk cur.reverse :: tokenizeGo rest []
    else tokenizeGo rest (c :: cur)

/-- The tokenizer of the source (`trim().split(/\s+/).filter(...)`, used at
lines 42-49, 150-157 and 203-210). -/
def tokenize (s : String) : List String :=
  tokenizeGo s.data []

/-- `word.toLowerCase()`; ASCII case folding (the claims only exercise ASCII
inputs). -/
def toLowerCase (s : String) : String :=
  String.mk (s.data.map Char.toLower)

/-- The `wordsEqual` closure of `computeLCS` (`src/index.ts` lines 80-85). -/
def wordsEqual (ignoreCase : Bool) (word1 word2 : String) : Bool :=
  if ignoreCase then toLowerCase word1 == toLowerCase word2
  else word1 == word2

/-- One row of the LCS table: given row `i` (`prevRow`), computes row `i+1`
entry by entry.  Together with `lcsTable` this is the table fill of
`src/index.ts` lines 87-101, written as a structural recursion. -/
def lcsRow (eq : String → String → Bool) (bw uw : List String) (i : Nat)
    (prevRow : Nat → Nat) : Nat → Nat
  | 0 => 0
  | j + 1 =>
    if eq (bw.getD i "") (uw.getD j "") then prevRow j + 1
    else max (prevRow (j + 1)) (lcsRow eq bw uw i prevRow j)

/-- `lcs[i][j]` of `src/index.ts` lines 87-101: the LCS length of the first
`i` base words and the first `j` updated words under `eq`. -/
def lcsTable (eq : String → String → Bool) (bw uw : List String) : Nat → Nat → Nat
  | 0 => fun _ => 0
  | i + 1 => lcsRow eq bw uw i (lcsTable eq bw uw i)

/-- A removed-word change as built at `src/index.ts` lines 121-125. -/
def removedChange (bw : List String) (i : Nat) : Change :=
  { type := .removed, word := bw.getD i "", baseIndex := some i }

/-- An added-word change as built at `src/index.ts` lines 129-133. -/
def addedChange (uw : List String) (j : Nat) : Change :=
  { type := .added, word := uw.getD j "", updatedIndex := some j }

/-- An unchanged-word change as built at `src/index.ts` lines 111-116. -/
def unchangedChange (bw : List String) (i j : Nat) : Change :=
  { type := .unchanged, word := bw.getD i "", baseIndex := some i,
    updatedIndex := some j }

/-- The backtracking loop restricted to `i = 0` (only added words remain). -/
def backtrackRow0 (uw : List String) : Nat → List Change
  | 0 => []
  | j + 1 => backtrackRow0 uw j ++ [addedChange uw j]

/-- The backtracking loop at first index `i+1`, given its behaviour `prev` at
first index `i`. -/
def backtrackRow (eq : String → String → Bool) (bw uw : List String) (i : Nat)
    (prev : Nat → List Change) : Nat → List Change
  | 0 => prev 0 ++ [removedChange bw i]
  | j + 1 =>
    if eq (bw.getD i "") (uw.getD j "") then
      prev j ++ [unchangedChange bw i j]
    else if lcsTable eq bw uw i (j + 1) ≥ lcsTable eq bw uw (i + 1) j then
      prev (j + 1) ++ [removedChange bw i]
    else
      backtrackRow eq bw uw i prev j ++ [addedChange uw j]

/-- The backtracking `while` loop of `src/index.ts` lines 104-136:
`backtrack eq bw uw i j` is the change list the loop produces starting from
indices `(i, j)` (each `changes.unshift` of the source corresponds to one
`++ [op]` here, so the list is in forward document order). -/
def backtrack (eq : String → String → Bool) (bw uw : List String) : Nat → Nat → List Change
  | 0 => backtrackRow0 uw
  | i + 1 => backtrackRow eq bw uw i (backtrack eq bw uw i)

/-- `computeLCS` of `src/index.ts` lines 74-139. -/
def computeLCS (baseWords updatedWords : List String) (options : CompareOptions) :
    List Change :=
  backtrack (wordsEqual (options.ignoreCase.getD false)) baseWords updatedWords
    baseWords.length updatedWords.length

/-- `compareTexts` of `src/index.ts` lines 37-68: positions are collected from
the change list in order, keeping `baseIndex` of removed changes and
`updatedIndex` of added changes. -/
def compareTexts (baseText updatedText : String) (options : CompareOptions := {}) :
    DiffResult :=
  let baseWords := tokenize baseText
  let updatedWords := tokenize updatedText
  let changes := computeLCS baseWords updatedWords options
  { removedPositions := changes.filterMap fun change =>
      match change.type, change.baseIndex with
      | .removed, some i => some i
      | _, _ => none
    addedPositions := changes.filterMap fun change =>
      match change.type, change.updatedIndex with
      | .added, some j => some j
      | _, _ => none }

example : compareTexts "cat" "dog" = ⟨[0], [0]⟩ := by decide
example : compareTexts "hello world" "" = ⟨[0, 1], []⟩ := by decide
example : compareTexts "" "hello world" = ⟨[], [0, 1]⟩ := by decide
example : compareTexts "Hello World" "hello world" ⟨some true⟩ = ⟨[], []⟩ := by decide
example : compareTexts "Hello World" "hello world" = ⟨[0, 1], [0, 1]⟩ := by decide
example :
    compareTexts "The quick brown fox jumps over the lazy dog"
      "The brown fox jumps over the dog" = ⟨[1, 7], []⟩ := by decide
example :
    computeLCS ["cat"] ["dog"] {} =
      [addedChange ["dog"] 0, removedChange ["cat"] 0] := by decide

/-- `visualizeDiff` of `src/index.ts` lines 148-181: two labelled blocks, each
word followed by one space, wrapped in `[-...]`/`[+...]` when its index occurs
in the corresponding position list. -/
def visualizeDiff (baseText updatedText : String) (options : CompareOptions := {}) :
    String :=
  let result := compareTexts baseText updatedText options
  let baseWords := tokenize baseText
  let updatedWords := tokenize updatedText
  "Base text (- = removed):\n"
    ++ String.join (baseWords.enum.map fun p =>
        if result.removedPositions.contains p.1 then "[-" ++ p.2 ++ "] "
        else p.2 ++ " ")
    ++ "\n\nUpdated text (+ = added):\n"
    ++ String.join (updatedWords.enum.map fun p =>
        if result.addedPositions.contains p.1 then "[+" ++ p.2 ++ "] "
        else p.2 ++ " ")

/-- `WordStyleOptions` of `src/index.ts` lines 17-22; `none` models an absent
property. -/
structure WordStyleOptions where
  applyHighlighting : Option Bool := none
  highlightColor : Option String := none
  className : Option String := none
  applyLineThrough : Option Bool := none
deriving DecidableEq, Repr

/-- A fully-populated style, as obtained after spreading user options over the
defaults (`src/index.ts` lines 233-234). -/
structure MergedStyle where
  applyHighlighting : Bool
  highlightColor : String
  className : String
  applyLineThrough : Bool
deriving DecidableEq, Repr

/-- `defaultAddedStyle` of `src/index.ts` lines 219-224. -/
def defaultAddedStyle : MergedStyle :=
  { applyHighlighting := true, highlightColor := "#90EE90",
    className := "diff-added", applyLineThrough := false }

/-- `defaultRemovedStyle` of `src/index.ts` lines 226-231. -/
def defaultRemovedStyle : MergedStyle :=
  { applyHighlighting := true, highlightColor := "#FFB6C1",
    className := "diff-removed", applyLineThrough := true }

/-- The object spread `{ ...defaults, ...options }` of `src/index.ts` lines
233-234: any property present in the user options overrides the default. -/
def mergeStyle (d : MergedStyle) (o : WordStyleOptions) : MergedStyle :=
  { applyHighlighting := o.applyHighlighting.getD d.applyHighlighting,
    highlightColor := o.highlightColor.getD d.highlightColor,
    className := o.className.getD d.className,
    applyLineThrough := o.applyLineThrough.getD d.applyLineThrough }

/-- `HtmlFormatOptions` of `src/index.ts` lines 24-28. -/
structure HtmlFormatOptions where
  ignoreCase : Option Bool := none
  addedStyle : WordStyleOptions := {}
  removedStyle : WordStyleOptions := {}
deriving DecidableEq, Repr

/-- `sanitizeClassName` of `src/index.ts` lines 237-241:
`className.replace(/[^a-zA-Z0-9\-_ ]/g, "")`. -/
def sanitizeClassName (className : String) : String :=
  String.mk (className.data.filter fun c =>
    c.isAlpha || c.isDigit || c == '-' || c == '_' || c == ' ')

/-- The DOM nodes `formatDiffAsHtml` appends to its container: either a text
node (`document.createTextNode`) or a `span` built by `createStyledSpan`,
recording the class attribute (if `className` was set), the
`background-color` inline style (if applied), the line-through flag and the
`textContent`. -/
inductive DomNode where
  | text : String → DomNode
  | span : Option String → Option String → Bool → String → DomNode
deriving DecidableEq, Repr

/-- `createStyledSpan`'s body for a given merged style (`src/index.ts` lines
244-266): the class is set only for a truthy (non-empty) `className`, the
background colour only when highlighting is on and the colour string is
truthy. -/
def createStyledSpan (style : MergedStyle) (word : String) : DomNode :=
  DomNode.span
    (if style.className ≠ "" then some (sanitizeClassName style.className) else none)
    (if style.applyHighlighting ∧ style.highlightColor ≠ "" then
      some style.highlightColor
    else none)
    style.applyLineThrough
    word

/-- HTML serialization of one text-node character (the `innerHTML` text-node
escaping: `&` `<` `>` become entities; the non-breaking-space entity, which no
claim concerns, is not modelled). -/
def escapeChar (c : Char) : String :=
  if c == '&' then "&amp;"
  else if c == '<' then "&lt;"
  else if c == '>' then "&gt;"
  else String.singleton c

/-- Concatenated text-node escaping of a character list. -/
def escapeList : List Char → String
  | [] => ""
  | c :: cs => escapeChar c ++ escapeList cs

/-- HTML serialization of text-node content: this is the text-only insertion
primitive through which every token reaches the output. -/
def escapeHtml (s : String) : String :=
  escapeList s.data

/-- HTML serialization of one attribute-value character (`&` and `"` become
entities inside double-quoted attributes). -/
def escapeAttrChar (c : Char) : String :=
  if c == '&' then "&amp;"
  else if c == '"' then "&quot;"
  else String.singleton c

/-- Concatenated attribute-value escaping of a character list. -/
def escapeAttrList : List Char → String
  | [] => ""
  | c :: cs => escapeAttrChar c ++ escapeAttrList cs

/-- HTML serialization of an attribute value. -/
def escapeAttr (s : String) : String :=
  escapeAttrList s.data

/-- Serialization of the inline `style` attribute text set via
`span.style.backgroundColor` / `span.style.textDecoration` (`src/index.ts`
lines 254-260).  CSS value parsing/normalisation is not modelled: the colour
string is kept verbatim, as no claim depends on it. -/
def styleText (backgroundColor : Option String) (lineThrough : Bool) : String :=
  (match backgroundColor with
    | some c => "background-color: " ++ c ++ ";"
    | none => "")
  ++ (if lineThrough then
        (if backgroundColor.isSome then " " else "") ++ "text-decoration: line-through;"
      else "")

/-- `innerHTML` serialization of a single node. -/
def serializeNode : DomNode → String
  | DomNode.text s => escapeHtml s
  | DomNode.span cls bg lt content =>
    "<span"
      ++ (match cls with
          | some c => " class=\"" ++ escapeAttr c ++ "\""
          | none => "")
      ++ (if bg.isSome ∨ lt then " style=\"" ++ escapeAttr (styleText bg lt) ++ "\""
          else "")
      ++ ">" ++ escapeHtml content ++ "</span>"

/-- The children appended after the first one in the `changes.forEach` loop of
`src/index.ts` lines 271-283: each preceded by a `" "` text node. -/
def containerTail (f : Change → DomNode) : List Change → List DomNode
  | [] => []
  | c :: rest => DomNode.text " " :: f c :: containerTail f rest

/-- The full child list of the container div built at `src/index.ts` lines
268-283 (`index > 0` guards the separating space). -/
def containerChildren (f : Change → DomNode) : List Change → List DomNode
  | [] => []
  | c :: rest => f c :: containerTail f rest

/-- `container.innerHTML` (`src/index.ts` line 285): the concatenation of the
children's serializations. -/
def innerHTML : List DomNode → String
  | [] => ""
  | n :: rest => serializeNode n ++ innerHTML rest

/-- The per-change node of the `forEach` body at `src/index.ts` lines 276-282:
removed and added words get styled spans, unchanged words plain text nodes. -/
def renderChange (addedStyle removedStyle : MergedStyle) (c : Change) : DomNode :=
  match c.type with
  | .removed => createStyledSpan removedStyle c.word
  | .added => createStyledSpan addedStyle c.word
  | .unchanged => DomNode.text c.word

/-- The error message thrown at `src/index.ts` lines 198-200. -/
def envErrorMessage : String :=
  "formatDiffAsHtml requires a browser environment with document API. This function is not available in Node.js."

/-- `formatDiffAsHtml` of `src/index.ts` lines 191-286.  The ambient
`document` global is modelled by the `documentDefined` capability flag; the
`typeof document === "undefined"` check (lines 197-201) becomes the leading
`Except.error`, taken before anything is built. -/
def formatDiffAsHtml (documentDefined : Bool) (baseText updatedText : String)
    (options : HtmlFormatOptions := {}) : Except String String :=
  if documentDefined then
    let baseWords := tokenize baseText
    let updatedWords := tokenize updatedText
    let changes := computeLCS baseWords updatedWords ⟨options.ignoreCase⟩
    let addedStyle := mergeStyle defaultAddedStyle options.addedStyle
    let removedStyle := mergeStyle defaultRemovedStyle options.removedStyle
    Except.ok (innerHTML (containerChildren (renderChange addedStyle removedStyle) changes))
  else
    Except.error envErrorMessage

deriving instance DecidableEq for Except

set_option maxRecDepth 4096 in
example :
    formatDiffAsHtml true "cat" "dog" =
      Except.ok
        ("<span class=\"diff-added\" style=\"background-color: #90EE90;\">dog</span>"
          ++ " "
          ++ "<span class=\"diff-removed\" style=\"background-color: #FFB6C1; text-decoration: line-through;\">cat</span>") := by
  decide

/-- Modelled from the spec: the repository's README and test suite document
`showAdded`/`showRemoved` flags on `formatDiffAsHtml` ("showAdded/showRemoved
default true and control only whether styling is applied, not whether the
token text appears"), but the revision of `src/index.ts` implementing them is
not part of the source snapshot, whose `HtmlFormatOptions` stops at
`removedStyle`.  This options record extends the snapshot's options with the
two flags, `none` modelling an absent property (default `true`). -/
structure HtmlFormatOptionsShow where
  ignoreCase : Option Bool := none
  addedStyle : WordStyleOptions := {}
  removedStyle : WordStyleOptions := {}
  showAdded : Option Bool := none
  showRemoved : Option Bool := none
deriving DecidableEq, Repr

/-- Modelled from the spec: the per-change node when the `showAdded` and
`showRemoved` flags are available — "if the corresponding show flag is true,
emit a styled inline element ... If the show flag is false, emit the bare
token text (no element)". -/
def renderChangeShow (addedStyle removedStyle : MergedStyle)
    (showAdded showRemoved : Bool) (c : Change) : DomNode :=
  match c.type with
  | .removed =>
    if showRemoved then createStyledSpan removedStyle c.word
    else DomNode.text c.word
  | .added =>
    if showAdded then createStyledSpan addedStyle c.word
    else DomNode.text c.word
  | .unchanged => DomNode.text c.word

/-- Modelled from the spec: `formatDiffAsHtml` with the documented
`showAdded`/`showRemoved` flags; identical to the snapshot's renderer except
that suppressed kinds are emitted as bare text nodes. -/
def formatDiffAsHtmlShow (documentDefined : Bool) (baseText updatedText : String)
    (options : HtmlFormatOptionsShow := {}) : Except String String :=
  if documentDefined then
    let baseWords := tokenize baseText
    let updatedWords := tokenize updatedText
    let changes := computeLCS baseWords updatedWords ⟨options.ignoreCase⟩
    let addedStyle := mergeStyle defaultAddedStyle options.addedStyle
    let removedStyle := mergeStyle defaultRemovedStyle options.removedStyle
    Except.ok (innerHTML (containerChildren
      (renderChangeShow addedStyle removedStyle
        (options.showAdded.getD true) (options.showRemoved.getD true)) changes))
  else
    Except.error envErrorMessage

/-! ## Defining equations of the table and the backtracking loop -/

theorem lcsTable_zero_left (eq : String → String → Bool) (bw uw : List String)
    (j : Nat) : lcsTable eq bw uw 0 j = 0 := rfl

theorem lcsTable_zero_right (eq : String → String → Bool) (bw uw : List String)
    (i : Nat) : lcsTable eq bw uw i 0 = 0 := by
  cases i <;> rfl

theorem lcsTable_succ_succ (eq : String → String → Bool) (bw uw : List String)
    (i j : Nat) :
    lcsTable eq bw uw (i + 1) (j + 1) =
      if eq (bw.getD i "") (uw.getD j "") then lcsTable eq bw uw i j + 1
      else max (lcsTable eq bw uw i (j + 1)) (lcsTable eq bw uw (i + 1) j) := rfl

theorem backtrack_zero_zero (eq : String → String → Bool) (bw uw : List String) :
    backtrack eq bw uw 0 0 = [] := rfl

theorem backtrack_zero_succ (eq : String → String → Bool) (bw uw : List String)
    (j : Nat) :
    backtrack eq bw uw 0 (j + 1) = backtrack eq bw uw 0 j ++ [addedChange uw j] := rfl

theorem backtrack_succ_zero (eq : String → String → Bool) (bw uw : List String)
    (i : Nat) :
    backtrack eq bw uw (i + 1) 0 = backtrack eq bw uw i 0 ++ [removedChange bw i] := rfl

theorem backtrack_succ_succ (eq : String → String → Bool) (bw uw : List String)
    (i j : Nat) :
    backtrack eq bw uw (i + 1) (j + 1) =
      if eq (bw.getD i "") (uw.getD j "") then
        backtrack eq bw uw i j ++ [unchangedChange bw i j]
      else if lcsTable eq bw uw i (j + 1) ≥ lcsTable eq bw uw (i + 1) j then
        backtrack eq bw uw i (j + 1) ++ [removedChange bw i]
      else
        backtrack eq bw uw (i + 1) j ++ [addedChange uw j] := rfl

/-! ## Counting the emitted operations -/

/-- Number of changes of a given kind in an edit script. -/
def countType (cs : List Change) (t : ChangeType) : Nat :=
  (cs.filter fun c => c.type == t).length

/-- The removed-position projection of `compareTexts` (lines 56-62 of the
source). -/
def removedPositionsOf (cs : List Change) : List Nat :=
  cs.filterMap fun change =>
    match change.type, change.baseIndex with
    | .removed, some i => some i
    | _, _ => none

/-- The added-position projection of `compareTexts` (lines 56-62 of the
source). -/
def addedPositionsOf (cs : List Change) : List Nat :=
  cs.filterMap fun change =>
    match change.type, change.updatedIndex with
    | .added, some j => some j
    | _, _ => none

theorem compareTexts_eq (baseText updatedText : String) (options : CompareOptions) :
    compareTexts baseText updatedText options =
      { removedPositions :=
          removedPositionsOf (computeLCS (tokenize baseText) (tokenize updatedText) options)
        addedPositions :=
          addedPositionsOf (computeLCS (tokenize baseText) (tokenize updatedText) options) } := rfl

/-- Monotonicity and one-step growth bounds of the LCS table, proved
simultaneously by strong induction on `i + j`. -/
theorem lcsTable_pack (eq : String → String → Bool) (bw uw : List String) :
    ∀ N i j, i + j ≤ N →
      (lcsTable eq bw uw i j ≤ lcsTable eq bw uw (i + 1) j ∧
        lcsTable eq bw uw i j ≤ lcsTable eq bw uw i (j + 1)) ∧
      (lcsTable eq bw uw (i + 1) j ≤ lcsTable eq bw uw i j + 1 ∧
        lcsTable eq bw uw i (j + 1) ≤ lcsTable eq bw uw i j + 1) := by
  intro N
  induction N with
  | zero =>
    intro i j hij
    have hi : i = 0 := by omega
    have hj : j = 0 := by omega
    subst hi; subst hj
    refine ⟨⟨?_, ?_⟩, ?_, ?_⟩ <;>
      simp [lcsTable_zero_right, lcsTable_zero_left]
  | succ N ih =>
    intro i j hij
    refine ⟨⟨?_, ?_⟩, ?_, ?_⟩
    · cases j with
      | zero => simp [lcsTable_zero_right]
      | succ j' =>
        rw [lcsTable_succ_succ]
        by_cases h : eq (bw.getD i "") (uw.getD j' "") = true
        · simp only [h, if_true]
          exact (ih i j' (by omega)).2.2
        · simp only [h, if_false]
          exact le_max_left _ _
    · cases i with
      | zero => simp [lcsTable_zero_left]
      | succ i' =>
        rw [lcsTable_succ_succ]
        by_cases h : eq (bw.getD i' "") (uw.getD j "") = true
        · simp only [h, if_true]
          exact (ih i' j (by omega)).2.1
        · simp only [h, if_false]
          exact le_max_right _ _
    · cases j with
      | zero => simp [lcsTable_zero_right]
      | succ j' =>
        rw [lcsTable_succ_succ]
        by_cases h : eq (bw.getD i "") (uw.getD j' "") = true
        · simp only [h, if_true]
          exact Nat.succ_le_succ (ih i j' (by omega)).1.2
        · simp only [h, if_false]
          apply max_le
          · exact Nat.le_succ _
          · exact le_trans (ih i j' (by omega)).2.1
              (Nat.succ_le_succ (ih i j' (by omega)).1.2)
    · cases i with
      | zero => simp [lcsTable_zero_left]
      | succ i' =>
        rw [lcsTable_succ_succ]
        by_cases h : eq (bw.getD i' "") (uw.getD j "") = true
        · simp only [h, if_true]
          exact Nat.succ_le_succ (ih i' j (by omega)).1.1
        · simp only [h, if_false]
          apply max_le
          · exact le_trans (ih i' j (by omega)).2.2
              (Nat.succ_le_succ (ih i' j (by omega)).1.1)
          · exact Nat.le_succ _

theorem lcsTable_le_succ_fst (eq : String → String → Bool) (bw uw : List String)
    (i j : Nat) : lcsTable eq bw uw i j ≤ lcsTable eq bw uw (i + 1) j :=
  ((lcsTable_pack eq bw uw (i + j) i j le_rfl).1).1

theorem lcsTable_le_succ_snd (eq : String → String → Bool) (bw uw : List String)
    (i j : Nat) : lcsTable eq bw uw i j ≤ lcsTable eq bw uw i (j + 1) :=
  ((lcsTable_pack eq bw uw (i + j) i j le_rfl).1).2

theorem lcsTable_succ_fst_le (eq : String → String → Bool) (bw uw : List String)
    (i j : Nat) : lcsTable eq bw uw (i + 1) j ≤ lcsTable eq bw uw i j + 1 :=
  ((lcsTable_pack eq bw uw (i + j) i j le_rfl).2).1

theorem lcsTable_succ_snd_le (eq : String → String → Bool) (bw uw : List String)
    (i j : Nat) : lcsTable eq bw uw i (j + 1) ≤ lcsTable eq bw uw i j + 1 :=
  ((lcsTable_pack eq bw uw (i + j) i j le_rfl).2).2

theorem countType_append (l₁ l₂ : List Change) (t : ChangeType) :
    countType (l₁ ++ l₂) t = countType l₁ t + countType l₂ t := by
  simp [countType, List.filter_append]

/-- Per-kind counts of the three singleton changes. -/
theorem countType_addedChange (uw : List String) (j : Nat) :
    countType [addedChange uw j] .added = 1 ∧
    countType [addedChange uw j] .removed = 0 ∧
    countType [addedChange uw j] .unchanged = 0 := ⟨rfl, rfl, rfl⟩

theorem countType_removedChange (bw : List String) (i : Nat) :
    countType [removedChange bw i] .added = 0 ∧
    countType [removedChange bw i] .removed = 1 ∧
    countType [removedChange bw i] .unchanged = 0 := ⟨rfl, rfl, rfl⟩

theorem countType_unchangedChange (bw : List String) (i j : Nat) :
    countType [unchangedChange bw i j] .added = 0 ∧
    countType [unchangedChange bw i j] .removed = 0 ∧
    countType [unchangedChange bw i j] .unchanged = 1 := ⟨rfl, rfl, rfl⟩

/-- The backtracking loop emits exactly `lcsTable i j` unchanged ops,
`i - lcsTable i j` removed ops and `j - lcsTable i j` added ops (stated
additively). -/
theorem backtrack_counts (eq : String → String → Bool) (bw uw : List String) :
    ∀ N i j, i + j ≤ N →
      countType (backtrack eq bw uw i j) .unchanged = lcsTable eq bw uw i j ∧
      countType (backtrack eq bw uw i j) .unchanged +
        countType (backtrack eq bw uw i j) .removed = i ∧
      countType (backtrack eq bw uw i j) .unchanged +
        countType (backtrack eq bw uw i j) .added = j := by
  intro N
  induction N with
  | zero =>
    intro i j hij
    have hi : i = 0 := by omega
    have hj : j = 0 := by omega
    subst hi; subst hj
    refine ⟨rfl, rfl, rfl⟩
  | succ N ih =>
    intro i j hij
    match i, j with
    | 0, 0 => exact ⟨rfl, rfl, rfl⟩
    | 0, j + 1 =>
      have h := ih 0 j (by omega)
      have ha := countType_addedChange uw j
      rw [backtrack_zero_succ]
      simp only [countType_append, lcsTable_zero_left] at *
      omega
    | i + 1, 0 =>
      have h := ih i 0 (by omega)
      have hr := countType_removedChange bw i
      rw [backtrack_succ_zero]
      simp only [countType_append, lcsTable_zero_right] at *
      omega
    | i + 1, j + 1 =>
      rw [backtrack_succ_succ, lcsTable_succ_succ]
      by_cases h : eq (bw.getD i "") (uw.getD j "") = true
      · have hih := ih i j (by omega)
        have hu := countType_unchangedChange bw i j
        rw [if_pos h, if_pos h]
        simp only [countType_append] at *
        omega
      · rw [if_neg h, if_neg h]
        by_cases h2 : lcsTable eq bw uw i (j + 1) ≥ lcsTable eq bw uw (i + 1) j
        · have hih := ih i (j + 1) (by omega)
          have hr := countType_removedChange bw i
          have hmax : max (lcsTable eq bw uw i (j + 1)) (lcsTable eq bw uw (i + 1) j) =
              lcsTable eq bw uw i (j + 1) := max_eq_left h2
          rw [if_pos h2, hmax]
          simp only [countType_append] at *
          omega
        · have hih := ih (i + 1) j (by omega)
          have ha := countType_addedChange uw j
          have hmax : max (lcsTable eq bw uw i (j + 1)) (lcsTable eq bw uw (i + 1) j) =
              lcsTable eq bw uw (i + 1) j := max_eq_right (by omega)
          rw [if_neg h2, hmax]
          simp only [countType_append] at *
          omega

theorem removedPositionsOf_append (l₁ l₂ : List Change) :
    removedPositionsOf (l₁ ++ l₂) =
      removedPositionsOf l₁ ++ removedPositionsOf l₂ := by
  simp [removedPositionsOf, List.filterMap_append]

theorem addedPositionsOf_append (l₁ l₂ : List Change) :
    addedPositionsOf (l₁ ++ l₂) =
      addedPositionsOf l₁ ++ addedPositionsOf l₂ := by
  simp [addedPositionsOf, List.filterMap_append]

/-- Positions recorded while backtracking from `(i, j)`: removed positions are
strictly increasing and below `i`, added positions strictly increasing and
below `j`, and their multitudes match the op counts. -/
theorem backtrack_positions (eq : String → String → Bool) (bw uw : List String) :
    ∀ N i j, i + j ≤ N →
      (∀ x ∈ removedPositionsOf (backtrack eq bw uw i j), x < i) ∧
      List.Pairwise (· < ·) (removedPositionsOf (backtrack eq bw uw i j)) ∧
      (removedPositionsOf (backtrack eq bw uw i j)).length =
        countType (backtrack eq bw uw i j) .removed ∧
      (∀ x ∈ addedPositionsOf (backtrack eq bw uw i j), x < j) ∧
      List.Pairwise (· < ·) (addedPositionsOf (backtrack eq bw uw i j)) ∧
      (addedPositionsOf (backtrack eq bw uw i j)).length =
        countType (backtrack eq bw uw i j) .added := by
  intro N
  induction N with
  | zero =>
    intro i j hij
    have hi : i = 0 := by omega
    have hj : j = 0 := by omega
    subst hi; subst hj
    exact ⟨by simp [removedPositionsOf, backtrack_zero_zero],
      by simp [removedPositionsOf, backtrack_zero_zero], rfl,
      by simp [addedPositionsOf, backtrack_zero_zero],
      by simp [addedPositionsOf, backtrack_zero_zero], rfl⟩
  | succ N ih =>
    intro i j hij
    match i, j with
    | 0, 0 =>
      exact ⟨by simp [removedPositionsOf, backtrack_zero_zero],
        by simp [removedPositionsOf, backtrack_zero_zero], rfl,
        by simp [addedPositionsOf, backtrack_zero_zero],
        by simp [addedPositionsOf, backtrack_zero_zero], rfl⟩
    | 0, j + 1 =>
      obtain ⟨hrb, hrp, hrl, hab, hap, hal⟩ := ih 0 j (by omega)
      have e1 : removedPositionsOf [addedChange uw j] = [] := rfl
      have e2 : addedPositionsOf [addedChange uw j] = [j] := rfl
      have e3 : countType [addedChange uw j] ChangeType.removed = 0 := rfl
      have e4 : countType [addedChange uw j] ChangeType.added = 1 := rfl
      rw [backtrack_zero_succ]
      simp only [removedPositionsOf_append, addedPositionsOf_append,
        countType_append, e1, e2, e3, e4, List.append_nil]
      refine ⟨hrb, hrp, by omega, ?_, ?_, by simp [hal]⟩
      · intro x hx
        rcases List.mem_append.mp hx with hx | hx
        · exact Nat.lt_succ_of_lt (hab x hx)
        · simp only [List.mem_singleton] at hx
          omega
      · rw [List.pairwise_append]
        refine ⟨hap, List.pairwise_singleton _ _, ?_⟩
        intro a ha b hb
        simp only [List.mem_singleton] at hb
        subst hb
        exact hab a ha
    | i + 1, 0 =>
      obtain ⟨hrb, hrp, hrl, hab, hap, hal⟩ := ih i 0 (by omega)
      have e1 : removedPositionsOf [removedChange bw i] = [i] := rfl
      have e2 : addedPositionsOf [removedChange bw i] = [] := rfl
      have e3 : countType [removedChange bw i] ChangeType.removed = 1 := rfl
      have e4 : countType [removedChange bw i] ChangeType.added = 0 := rfl
      rw [backtrack_succ_zero]
      simp only [removedPositionsOf_append, addedPositionsOf_append,
        countType_append, e1, e2, e3, e4, List.append_nil]
      refine ⟨?_, ?_, by simp [hrl], hab, hap, by omega⟩
      · intro x hx
        rcases List.mem_append.mp hx with hx | hx
        · exact Nat.lt_succ_of_lt (hrb x hx)
        · simp only [List.mem_singleton] at hx
          omega
      · rw [List.pairwise_append]
        refine ⟨hrp, List.pairwise_singleton _ _, ?_⟩
        intro a ha b hb
        simp only [List.mem_singleton] at hb
        subst hb
        exact hrb a ha
    | i + 1, j + 1 =>
      rw [backtrack_succ_succ]
      by_cases h : eq (bw.getD i "") (uw.getD j "") = true
      · obtain ⟨hrb, hrp, hrl, hab, hap, hal⟩ := ih i j (by omega)
        have e1 : removedPositionsOf [unchangedChange bw i j] = [] := rfl
        have e2 : addedPositionsOf [unchangedChange bw i j] = [] := rfl
        have e3 : countType [unchangedChange bw i j] ChangeType.removed = 0 := rfl
        have e4 : countType [unchangedChange bw i j] ChangeType.added = 0 := rfl
        rw [if_pos h]
        simp only [removedPositionsOf_append, addedPositionsOf_append,
          countType_append, e1, e2, e3, e4, List.append_nil]
        exact ⟨fun x hx => Nat.lt_succ_of_lt (hrb x hx), hrp, by omega,
          fun x hx => Nat.lt_succ_of_lt (hab x hx), hap, by omega⟩
      · rw [if_neg h]
        by_cases h2 : lcsTable eq bw uw i (j + 1) ≥ lcsTable eq bw uw (i + 1) j
        · obtain ⟨hrb, hrp, hrl, hab, hap, hal⟩ := ih i (j + 1) (by omega)
          have e1 : removedPositionsOf [removedChange bw i] = [i] := rfl
          have e2 : addedPositionsOf [removedChange bw i] = [] := rfl
          have e3 : countType [removedChange bw i] ChangeType.removed = 1 := rfl
          have e4 : countType [removedChange bw i] ChangeType.added = 0 := rfl
          rw [if_pos h2]
          simp only [removedPositionsOf_append, addedPositionsOf_append,
            countType_append, e1, e2, e3, e4, List.append_nil]
          refine ⟨?_, ?_, by simp [hrl], hab, hap, by omega⟩
          · intro x hx
            rcases List.mem_append.mp hx with hx | hx
            · exact Nat.lt_succ_of_lt (hrb x hx)
            · simp only [List.mem_singleton] at hx
              omega
          · rw [List.pairwise_append]
            refine ⟨hrp, List.pairwise_singleton _ _, ?_⟩
            intro a ha b hb
            simp only [List.mem_singleton] at hb
            subst hb
            exact hrb a ha
        · obtain ⟨hrb, hrp, hrl, hab, hap, hal⟩ := ih (i + 1) j (by omega)
          have e1 : removedPositionsOf [addedChange uw j] = [] := rfl
          have e2 : addedPositionsOf [addedChange uw j] = [j] := rfl
          have e3 : countType [addedChange uw j] ChangeType.removed = 0 := rfl
          have e4 : countType [addedChange uw j] ChangeType.added = 1 := rfl
          rw [if_neg h2]
          simp only [removedPositionsOf_append, addedPositionsOf_append,
            countType_append, e1, e2, e3, e4, List.append_nil]
          refine ⟨hrb, hrp, by omega, ?_, ?_, by simp [hal]⟩
          · intro x hx
            rcases List.mem_append.mp hx with hx | hx
            · exact Nat.lt_succ_of_lt (hab x hx)
            · simp only [List.mem_singleton] at hx
              omega
          · rw [List.pairwise_append]
            refine ⟨hap, List.pairwise_singleton _ _, ?_⟩
            intro a ha b hb
            simp only [List.mem_singleton] at hb
            subst hb
            exact hab a ha

theorem getD_get? (l : List String) (k : Nat) (hk : k < l.length) :
    l[k]? = some (l.getD k "") := by
  rw [List.getElem?_eq_getElem hk, List.getD_eq_getElem?_getD,
    List.getElem?_eq_getElem hk]
  rfl

/-- Every change emitted while backtracking carries the original token text of
the list it points into (never case-folded), together with a well-formed,
in-range index of the matching kind. -/
theorem backtrack_words (eq : String → String → Bool) (bw uw : List String) :
    ∀ N i j, i + j ≤ N → i ≤ bw.length → j ≤ uw.length →
      ∀ c ∈ backtrack eq bw uw i j,
        (c.type = .removed →
          ∃ k, k < i ∧ c.baseIndex = some k ∧ c.updatedIndex = none ∧
            bw[k]? = some c.word) ∧
        (c.type = .added →
          ∃ k, k < j ∧ c.updatedIndex = some k ∧ c.baseIndex = none ∧
            uw[k]? = some c.word) ∧
        (c.type = .unchanged →
          ∃ k l, k < i ∧ l < j ∧ c.baseIndex = some k ∧ c.updatedIndex = some l ∧
            bw[k]? = some c.word) := by
  intro N
  induction N with
  | zero =>
    intro i j hij hi hj c hc
    have hi0 : i = 0 := by omega
    have hj0 : j = 0 := by omega
    subst hi0; subst hj0
    simp [backtrack_zero_zero] at hc
  | succ N ih =>
    intro i j hij hi hj c hc
    match i, j with
    | 0, 0 => simp [backtrack_zero_zero] at hc
    | 0, j + 1 =>
      rw [backtrack_zero_succ] at hc
      rcases List.mem_append.mp hc with hc | hc
      · have h := ih 0 j (by omega) hi (by omega) c hc
        refine ⟨h.1, ?_, ?_⟩
        · intro ht
          obtain ⟨k, hk, h1, h2, h3⟩ := h.2.1 ht
          exact ⟨k, by omega, h1, h2, h3⟩
        · intro ht
          obtain ⟨k, l, hk, hl, h1, h2, h3⟩ := h.2.2 ht
          exact ⟨k, l, hk, by omega, h1, h2, h3⟩
      · simp only [List.mem_singleton] at hc
        subst hc
        refine ⟨by simp [addedChange], ?_, by simp [addedChange]⟩
        intro _
        exact ⟨j, by omega, rfl, rfl, getD_get? uw j (by omega)⟩
    | i + 1, 0 =>
      rw [backtrack_succ_zero] at hc
      rcases List.mem_append.mp hc with hc | hc
      · have h := ih i 0 (by omega) (by omega) hj c hc
        refine ⟨?_, h.2.1, ?_⟩
        · intro ht
          obtain ⟨k, hk, h1, h2, h3⟩ := h.1 ht
          exact ⟨k, by omega, h1, h2, h3⟩
        · intro ht
          obtain ⟨k, l, hk, hl, h1, h2, h3⟩ := h.2.2 ht
          exact ⟨k, l, by omega, hl, h1, h2, h3⟩
      · simp only [List.mem_singleton] at hc
        subst hc
        refine ⟨?_, by simp [removedChange], by simp [removedChange]⟩
        intro _
        exact ⟨i, by omega, rfl, rfl, getD_get? bw i (by omega)⟩
    | i + 1, j + 1 =>
      rw [backtrack_succ_succ] at hc
      by_cases h : eq (bw.getD i "") (uw.getD j "") = true
      · rw [if_pos h] at hc
        rcases List.mem_append.mp hc with hc | hc
        · have hh := ih i j (by omega) (by omega) (by omega) c hc
          refine ⟨?_, ?_, ?_⟩
          · intro ht
            obtain ⟨k, hk, h1, h2, h3⟩ := hh.1 ht
            exact ⟨k, by omega, h1, h2, h3⟩
          · intro ht
            obtain ⟨k, hk, h1, h2, h3⟩ := hh.2.1 ht
            exact ⟨k, by omega, h1, h2, h3⟩
          · intro ht
            obtain ⟨k, l, hk, hl, h1, h2, h3⟩ := hh.2.2 ht
            exact ⟨k, l, by omega, by omega, h1, h2, h3⟩
        · simp only [List.mem_singleton] at hc
          subst hc
          refine ⟨by simp [unchangedChange], by simp [unchangedChange], ?_⟩
          intro _
          exact ⟨i, j, by omega, by omega, rfl, rfl, getD_get? bw i (by omega)⟩
      · rw [if_neg h] at hc
        by_cases h2 : lcsTable eq bw uw i (j + 1) ≥ lcsTable eq bw uw (i + 1) j
        · rw [if_pos h2] at hc
          rcases List.mem_append.mp hc with hc | hc
          · have hh := ih i (j + 1) (by omega) (by omega) hj c hc
            refine ⟨?_, hh.2.1, ?_⟩
            · intro ht
              obtain ⟨k, hk, h1, h2, h3⟩ := hh.1 ht
              exact ⟨k, by omega, h1, h2, h3⟩
            · intro ht
              obtain ⟨k, l, hk, hl, h1, h2, h3⟩ := hh.2.2 ht
              exact ⟨k, l, by omega, hl, h1, h2, h3⟩
          · simp only [List.mem_singleton] at hc
            subst hc
            refine ⟨?_, by simp [removedChange], by simp [removedChange]⟩
            intro _
            exact ⟨i, by omega, rfl, rfl, getD_get? bw i (by omega)⟩
        · rw [if_neg h2] at hc
          rcases List.mem_append.mp hc with hc | hc
          · have hh := ih (i + 1) j (by omega) hi (by omega) c hc
            refine ⟨hh.1, ?_, ?_⟩
            · intro ht
              obtain ⟨k, hk, h1, h2, h3⟩ := hh.2.1 ht
              exact ⟨k, by omega, h1, h2, h3⟩
            · intro ht
              obtain ⟨k, l, hk, hl, h1, h2, h3⟩ := hh.2.2 ht
              exact ⟨k, l, hk, by omega, h1, h2, h3⟩
          · simp only [List.mem_singleton] at hc
            subst hc
            refine ⟨by simp [addedChange], ?_, by simp [addedChange]⟩
            intro _
            exact ⟨j, by omega, rfl, rfl, getD_get? uw j (by omega)⟩

/-- The adjacency relation a replacement run satisfies in the emitted script:
a removed op is never immediately followed by an added op (the tie-break emits
the removed side later during backtracking, hence earlier ops of a
replacement are the added ones). -/
def notRemAdd (c c' : Change) : Prop :=
  ¬(c.type = ChangeType.removed ∧ c'.type = ChangeType.added)

/-- The op the backtracking loop emits at state `(i, j)` (the last op of
`backtrack eq bw uw i j`). -/
def emitOp (eq : String → String → Bool) (bw uw : List String) : Nat → Nat → Option Change
  | 0, 0 => none
  | 0, j + 1 => some (addedChange uw j)
  | i + 1, 0 => some (removedChange bw i)
  | i + 1, j + 1 =>
    if eq (bw.getD i "") (uw.getD j "") then some (unchangedChange bw i j)
    else if lcsTable eq bw uw i (j + 1) ≥ lcsTable eq bw uw (i + 1) j then
      some (removedChange bw i)
    else some (addedChange uw j)

theorem backtrack_getLast (eq : String → String → Bool) (bw uw : List String)
    (i j : Nat) :
    (backtrack eq bw uw i j).getLast? = emitOp eq bw uw i j := by
  match i, j with
  | 0, 0 => rfl
  | 0, j + 1 => rw [backtrack_zero_succ, List.getLast?_concat]; rfl
  | i + 1, 0 => rw [backtrack_succ_zero, List.getLast?_concat]; rfl
  | i + 1, j + 1 =>
    rw [backtrack_succ_succ]
    by_cases h : eq (bw.getD i "") (uw.getD j "") = true
    · rw [if_pos h, List.getLast?_concat]
      simp only [emitOp]
      rw [if_pos h]
    · by_cases h2 : lcsTable eq bw uw i (j + 1) ≥ lcsTable eq bw uw (i + 1) j
      · rw [if_neg h, if_pos h2, List.getLast?_concat]
        simp only [emitOp]
        rw [if_neg h, if_pos h2]
      · rw [if_neg h, if_neg h2, List.getLast?_concat]
        simp only [emitOp]
        rw [if_neg h, if_neg h2]

/-- In the emitted edit script, a removed op is never immediately followed by
an added op: replacements surface as added-then-removed runs. -/
theorem backtrack_chain (eq : String → String → Bool) (bw uw : List String) :
    ∀ N i j, i + j ≤ N → List.Chain' notRemAdd (backtrack eq bw uw i j) := by
  intro N
  induction N with
  | zero =>
    intro i j hij
    have hi : i = 0 := by omega
    have hj : j = 0 := by omega
    subst hi; subst hj
    exact List.chain'_nil
  | succ N ih =>
    intro i j hij
    match i, j with
    | 0, 0 => exact List.chain'_nil
    | 0, j + 1 =>
      rw [backtrack_zero_succ, List.chain'_append]
      refine ⟨ih 0 j (by omega), List.chain'_singleton _, ?_⟩
      intro x hx y hy
      simp only [List.head?_cons, Option.mem_def, Option.some_inj] at hy
      subst hy
      rw [backtrack_getLast] at hx
      match j, hx with
      | j + 1, hx =>
        simp only [emitOp, Option.mem_def, Option.some_inj] at hx
        subst hx
        intro hcon
        simp [addedChange] at hcon
    | i + 1, 0 =>
      rw [backtrack_succ_zero, List.chain'_append]
      refine ⟨ih i 0 (by omega), List.chain'_singleton _, ?_⟩
      intro x hx y hy
      simp only [List.head?_cons, Option.mem_def, Option.some_inj] at hy
      subst hy
      intro hcon
      simp [removedChange] at hcon
    | i + 1, j + 1 =>
      rw [backtrack_succ_succ]
      by_cases h : eq (bw.getD i "") (uw.getD j "") = true
      · rw [if_pos h, List.chain'_append]
        refine ⟨ih i j (by omega), List.chain'_singleton _, ?_⟩
        intro x hx y hy
        simp only [List.head?_cons, Option.mem_def, Option.some_inj] at hy
        subst hy
        intro hcon
        simp [unchangedChange] at hcon
      · by_cases h2 : lcsTable eq bw uw i (j + 1) ≥ lcsTable eq bw uw (i + 1) j
        · rw [if_neg h, if_pos h2, List.chain'_append]
          refine ⟨ih i (j + 1) (by omega), List.chain'_singleton _, ?_⟩
          intro x hx y hy
          simp only [List.head?_cons, Option.mem_def, Option.some_inj] at hy
          subst hy
          intro hcon
          simp [removedChange] at hcon
        · rw [if_neg h, if_neg h2, List.chain'_append]
          refine ⟨ih (i + 1) j (by omega), List.chain'_singleton _, ?_⟩
          intro x hx y hy
          simp only [List.head?_cons, Option.mem_def, Option.some_inj] at hy
          subst hy
          rw [backtrack_getLast] at hx
          match j, hx, h2 with
          | 0, hx, h2 =>
            exact absurd (by
              rw [lcsTable_zero_right]
              exact Nat.zero_le _ :
                lcsTable eq bw uw i (0 + 1) ≥ lcsTable eq bw uw (i + 1) 0) h2
          | j' + 1, hx, h2 =>
            simp only [emitOp, Option.mem_def] at hx
            by_cases hEq' : eq (bw.getD i "") (uw.getD j' "") = true
            · rw [if_pos hEq'] at hx
              simp only [Option.some_inj] at hx
              subst hx
              intro hcon
              simp [unchangedChange] at hcon
            · rw [if_neg hEq'] at hx
              by_cases hGe' : lcsTable eq bw uw i (j' + 1) ≥ lcsTable eq bw uw (i + 1) j'
              · exfalso
                have hEqTable : lcsTable eq bw uw (i + 1) (j' + 1) =
                    lcsTable eq bw uw i (j' + 1) := by
                  rw [lcsTable_succ_succ, if_neg hEq']
                  exact max_eq_left hGe'
                have hmono : lcsTable eq bw uw i (j' + 1) ≤
                    lcsTable eq bw uw i (j' + 1 + 1) :=
                  lcsTable_le_succ_snd eq bw uw i (j' + 1)
                omega
              · rw [if_neg hGe'] at hx
                simp only [Option.some_inj] at hx
                subst hx
                intro hcon
                simp [addedChange] at hcon

/-- The equality key under which the engine compares tokens: the token itself,
or its lower-cased form when `ignoreCase` is set. -/
def normalizeWord (ignoreCase : Bool) (w : String) : String :=
  if ignoreCase then toLowerCase w else w

theorem wordsEqual_norm (ignoreCase : Bool) (a b : String) :
    wordsEqual ignoreCase a b = true ↔
      normalizeWord ignoreCase a = normalizeWord ignoreCase b := by
  cases ignoreCase <;> simp [wordsEqual, normalizeWord]

/-- The normalized words of the unchanged ops, in order. -/
def unchangedWordsNorm (ignoreCase : Bool) (cs : List Change) : List String :=
  cs.filterMap fun c =>
    if c.type == ChangeType.unchanged then some (normalizeWord ignoreCase c.word)
    else none

theorem unchangedWordsNorm_append (ignoreCase : Bool) (l₁ l₂ : List Change) :
    unchangedWordsNorm ignoreCase (l₁ ++ l₂) =
      unchangedWordsNorm ignoreCase l₁ ++ unchangedWordsNorm ignoreCase l₂ := by
  simp [unchangedWordsNorm, List.filterMap_append]

theorem sublist_snoc_cases (l X : List String) (x : String)
    (h : List.Sublist l (X ++ [x])) :
    List.Sublist l X ∨ ∃ l', l = l' ++ [x] ∧ List.Sublist l' X := by
  rcases List.sublist_append_iff.mp h with ⟨a, b, hab, ha, hb⟩
  rcases List.sublist_singleton.mp hb with hb' | hb'
  · subst hb'
    left
    rw [hab, List.append_nil]
    exact ha
  · subst hb'
    right
    exact ⟨a, hab, ha⟩

theorem take_map_snoc (l : List String) (f : String → String) (i : Nat)
    (hi : i < l.length) :
    (l.take (i + 1)).map f = (l.take i).map f ++ [f (l.getD i "")] := by
  rw [List.take_succ, getD_get? l i hi]
  simp

theorem take_sublist_take_succ (l : List String) (i : Nat) :
    List.Sublist (l.take i) (l.take (i + 1)) := by
  rw [List.take_succ]
  exact List.sublist_append_left _ _

/-- The normalized unchanged words of the backtracking output form a common
subsequence of the normalized prefixes, of length equal to the unchanged-op
count. -/
theorem backtrack_unchanged_sublist (ignoreCase : Bool) (bw uw : List String) :
    ∀ N i j, i + j ≤ N → i ≤ bw.length → j ≤ uw.length →
      List.Sublist
        (unchangedWordsNorm ignoreCase (backtrack (wordsEqual ignoreCase) bw uw i j))
        ((bw.take i).map (normalizeWord ignoreCase)) ∧
      List.Sublist
        (unchangedWordsNorm ignoreCase (backtrack (wordsEqual ignoreCase) bw uw i j))
        ((uw.take j).map (normalizeWord ignoreCase)) ∧
      (unchangedWordsNorm ignoreCase (backtrack (wordsEqual ignoreCase) bw uw i j)).length =
        countType (backtrack (wordsEqual ignoreCase) bw uw i j) .unchanged := by
  intro N
  induction N with
  | zero =>
    intro i j hij hi hj
    have hi0 : i = 0 := by omega
    have hj0 : j = 0 := by omega
    subst hi0; subst hj0
    exact ⟨List.nil_sublist _, List.nil_sublist _, rfl⟩
  | succ N ih =>
    intro i j hij hi hj
    match i, j with
    | 0, 0 => exact ⟨List.nil_sublist _, List.nil_sublist _, rfl⟩
    | 0, j + 1 =>
      obtain ⟨hbs, hus, hlen⟩ := ih 0 j (by omega) hi (by omega)
      have e1 : unchangedWordsNorm ignoreCase [addedChange uw j] = [] := rfl
      have e2 : countType [addedChange uw j] ChangeType.unchanged = 0 := rfl
      rw [backtrack_zero_succ, unchangedWordsNorm_append, countType_append, e1, e2,
        List.append_nil]
      exact ⟨hbs, hus.trans (List.Sublist.map _ (take_sublist_take_succ uw j)),
        by omega⟩
    | i + 1, 0 =>
      obtain ⟨hbs, hus, hlen⟩ := ih i 0 (by omega) (by omega) hj
      have e1 : unchangedWordsNorm ignoreCase [removedChange bw i] = [] := rfl
      have e2 : countType [removedChange bw i] ChangeType.unchanged = 0 := rfl
      rw [backtrack_succ_zero, unchangedWordsNorm_append, countType_append, e1, e2,
        List.append_nil]
      exact ⟨hbs.trans (List.Sublist.map _ (take_sublist_take_succ bw i)), hus,
        by omega⟩
    | i + 1, j + 1 =>
      rw [backtrack_succ_succ]
      by_cases h : wordsEqual ignoreCase (bw.getD i "") (uw.getD j "") = true
      · obtain ⟨hbs, hus, hlen⟩ := ih i j (by omega) (by omega) (by omega)
        have e1 : unchangedWordsNorm ignoreCase [unchangedChange bw i j] =
            [normalizeWord ignoreCase (bw.getD i "")] := rfl
        have e2 : countType [unchangedChange bw i j] ChangeType.unchanged = 1 := rfl
        rw [if_pos h, unchangedWordsNorm_append, countType_append, e1, e2]
        refine ⟨?_, ?_, ?_⟩
        · rw [take_map_snoc bw (normalizeWord ignoreCase) i (by omega)]
          exact List.Sublist.append hbs (List.Sublist.refl _)
        · rw [take_map_snoc uw (normalizeWord ignoreCase) j (by omega),
            (wordsEqual_norm ignoreCase _ _).mp h]
          exact List.Sublist.append hus (List.Sublist.refl _)
        · simp only [List.length_append, List.length_singleton]
          omega
      · rw [if_neg h]
        by_cases h2 : lcsTable (wordsEqual ignoreCase) bw uw i (j + 1) ≥
            lcsTable (wordsEqual ignoreCase) bw uw (i + 1) j
        · obtain ⟨hbs, hus, hlen⟩ := ih i (j + 1) (by omega) (by omega) hj
          have e1 : unchangedWordsNorm ignoreCase [removedChange bw i] = [] := rfl
          have e2 : countType [removedChange bw i] ChangeType.unchanged = 0 := rfl
          rw [if_pos h2, unchangedWordsNorm_append, countType_append, e1, e2,
            List.append_nil]
          exact ⟨hbs.trans (List.Sublist.map _ (take_sublist_take_succ bw i)), hus,
            by omega⟩
        · obtain ⟨hbs, hus, hlen⟩ := ih (i + 1) j (by omega) hi (by omega)
          have e1 : unchangedWordsNorm ignoreCase [addedChange uw j] = [] := rfl
          have e2 : countType [addedChange uw j] ChangeType.unchanged = 0 := rfl
          rw [if_neg h2, unchangedWordsNorm_append, countType_append, e1, e2,
            List.append_nil]
          exact ⟨hbs, hus.trans (List.Sublist.map _ (take_sublist_take_succ uw j)),
            by omega⟩

/-- Any common subsequence of the normalized prefixes is at most as long as
the table entry: `lcsTable` is the maximal common-subsequence length. -/
theorem lcsTable_max (ignoreCase : Bool) (bw uw : List String) :
    ∀ N i j, i + j ≤ N → i ≤ bw.length → j ≤ uw.length →
      ∀ l : List String,
        List.Sublist l ((bw.take i).map (normalizeWord ignoreCase)) →
        List.Sublist l ((uw.take j).map (normalizeWord ignoreCase)) →
        l.length ≤ lcsTable (wordsEqual ignoreCase) bw uw i j := by
  intro N
  induction N with
  | zero =>
    intro i j hij hi hj l hA hB
    have hi0 : i = 0 := by omega
    subst hi0
    have : l = [] := List.sublist_nil.mp (by simpa using hA)
    subst this
    simp
  | succ N ih =>
    intro i j hij hi hj l hA hB
    match i, j with
    | 0, j =>
      have : l = [] := List.sublist_nil.mp (by simpa using hA)
      subst this
      simp
    | i + 1, 0 =>
      have : l = [] := List.sublist_nil.mp (by simpa using hB)
      subst this
      simp
    | i + 1, j + 1 =>
      rw [take_map_snoc bw (normalizeWord ignoreCase) i (by omega)] at hA
      rcases sublist_snoc_cases _ _ _ hA with hA2 | ⟨l', rfl, hl'⟩
      · calc l.length ≤ lcsTable (wordsEqual ignoreCase) bw uw i (j + 1) :=
              ih i (j + 1) (by omega) (by omega) hj l hA2 hB
          _ ≤ lcsTable (wordsEqual ignoreCase) bw uw (i + 1) (j + 1) :=
              lcsTable_le_succ_fst _ bw uw i (j + 1)
      · rw [take_map_snoc uw (normalizeWord ignoreCase) j (by omega)] at hB
        rcases sublist_snoc_cases _ _ _ hB with hB2 | ⟨l'', heq, hl''⟩
        · calc (l' ++ [normalizeWord ignoreCase (bw.getD i "")]).length ≤
                lcsTable (wordsEqual ignoreCase) bw uw (i + 1) j :=
              ih (i + 1) j (by omega) hi (by omega) _ (by
                rw [take_map_snoc bw (normalizeWord ignoreCase) i (by omega)]
                exact List.Sublist.append hl' (List.Sublist.refl _)) hB2
            _ ≤ lcsTable (wordsEqual ignoreCase) bw uw (i + 1) (j + 1) :=
              lcsTable_le_succ_snd _ bw uw (i + 1) j
        · obtain ⟨hl, hx⟩ := List.append_inj' heq rfl
          subst hl
          have hxx : normalizeWord ignoreCase (bw.getD i "") =
              normalizeWord ignoreCase (uw.getD j "") := by
            simpa using hx
          have hEq : wordsEqual ignoreCase (bw.getD i "") (uw.getD j "") = true :=
            (wordsEqual_norm ignoreCase _ _).mpr hxx
          rw [lcsTable_succ_succ, if_pos hEq]
          have hle : l'.length ≤ lcsTable (wordsEqual ignoreCase) bw uw i j :=
            ih i j (by omega) (by omega) (by omega) l' hl' hl''
          simp only [List.length_append, List.length_singleton]
          omega

/-! ## Shape of the serialized output -/

/-- Join a list of segments with a separator (the shape `innerHTML` takes on
the container: one segment per change, single separating spaces). -/
def joinSep (sep : String) : List String → String
  | [] => ""
  | [x] => x
  | x :: y :: rest => x ++ sep ++ joinSep sep (y :: rest)

theorem serializeNode_text_space : serializeNode (DomNode.text " ") = " " := rfl

theorem joinSep_cons_cons (sep x y : String) (rest : List String) :
    joinSep sep (x :: y :: rest) = x ++ sep ++ joinSep sep (y :: rest) := rfl

theorem innerHTML_containerChildren (f : Change → DomNode) :
    ∀ l : List Change,
      innerHTML (containerChildren f l) =
        joinSep " " (l.map fun c => serializeNode (f c)) := by
  intro l
  induction l with
  | nil => rfl
  | cons c rest ih =>
    cases rest with
    | nil =>
      show serializeNode (f c) ++ "" = serializeNode (f c)
      exact String.append_empty _
    | cons c' rest' =>
      calc innerHTML (containerChildren f (c :: c' :: rest'))
          = serializeNode (f c) ++
              (" " ++ innerHTML (containerChildren f (c' :: rest'))) := rfl
        _ = serializeNode (f c) ++
              (" " ++ joinSep " " ((c' :: rest').map fun x => serializeNode (f x))) := by
            rw [ih]
        _ = joinSep " " ((c :: c' :: rest').map fun x => serializeNode (f x)) := by
            simp only [List.map_cons, joinSep_cons_cons, String.append_assoc]

theorem joinSep_adjacent (l : List String) :
    ∀ k a b, l[k]? = some a → l[k + 1]? = some b →
      ∃ pre post, joinSep " " l = pre ++ a ++ " " ++ b ++ post := by
  induction l with
  | nil => intro k a b ha _; simp at ha
  | cons x rest ih =>
    intro k a b ha hb
    cases k with
    | zero =>
      simp only [List.getElem?_cons_zero, Option.some_inj] at ha
      cases rest with
      | nil => simp at hb
      | cons y rest' =>
        simp only [List.getElem?_cons_succ, List.getElem?_cons_zero,
          Option.some_inj] at hb
        cases rest' with
        | nil =>
          refine ⟨"", "", ?_⟩
          rw [← ha, ← hb]
          simp [joinSep, String.empty_append, String.append_empty]
        | cons z rest'' =>
          refine ⟨"", " " ++ joinSep " " (z :: rest''), ?_⟩
          rw [← ha, ← hb]
          simp [joinSep_cons_cons, String.empty_append, String.append_assoc]
    | succ k' =>
      simp only [List.getElem?_cons_succ] at ha hb
      obtain ⟨pre', post', hdec⟩ := ih k' a b ha hb
      cases rest with
      | nil => simp at ha
      | cons y rest' =>
        refine ⟨x ++ " " ++ pre', post', ?_⟩
        rw [joinSep_cons_cons, hdec]
        simp only [String.append_assoc]

theorem joinSep_mem (l : List String) :
    ∀ a, a ∈ l → ∃ pre post, joinSep " " l = pre ++ a ++ post := by
  induction l with
  | nil => intro a ha; simp at ha
  | cons x rest ih =>
    intro a ha
    rcases List.mem_cons.mp ha with h | h
    · cases rest with
      | nil =>
        refine ⟨"", "", ?_⟩
        rw [h]
        simp [joinSep, String.empty_append, String.append_empty]
      | cons y rest' =>
        refine ⟨"", " " ++ joinSep " " (y :: rest'), ?_⟩
        rw [h, joinSep_cons_cons]
        simp [String.empty_append, String.append_assoc]
    · obtain ⟨pre', post', hdec⟩ := ih a h
      cases rest with
      | nil => simp at h
      | cons y rest' =>
        refine ⟨x ++ " " ++ pre', post', ?_⟩
        rw [joinSep_cons_cons, hdec]
        simp only [String.append_assoc]

theorem containerTail_mem (f : Change → DomNode) :
    ∀ l n, n ∈ containerTail f l → n = DomNode.text " " ∨ ∃ c ∈ l, n = f c := by
  intro l
  induction l with
  | nil => intro n hn; simp [containerTail] at hn
  | cons c rest ih =>
    intro n hn
    simp only [containerTail, List.mem_cons] at hn
    rcases hn with rfl | rfl | hn
    · exact Or.inl rfl
    · exact Or.inr ⟨c, List.mem_cons_self _ _, rfl⟩
    · rcases ih n hn with h | ⟨c', hc', rfl⟩
      · exact Or.inl h
      · exact Or.inr ⟨c', List.mem_cons_of_mem _ hc', rfl⟩

theorem containerChildren_mem (f : Change → DomNode) (l : List Change) (n : DomNode)
    (hn : n ∈ containerChildren f l) :
    n = DomNode.text " " ∨ ∃ c ∈ l, n = f c := by
  cases l with
  | nil => simp [containerChildren] at hn
  | cons c rest =>
    simp only [containerChildren, List.mem_cons] at hn
    rcases hn with rfl | hn
    · exact Or.inr ⟨c, List.mem_cons_self _ _, rfl⟩
    · rcases containerTail_mem f rest n hn with h | ⟨c', hc', rfl⟩
      · exact Or.inl h
      · exact Or.inr ⟨c', List.mem_cons_of_mem _ hc', rfl⟩

/-! ## Occurrence order inside a character list -/

/-- `a` occurs (as a contiguous block) before an occurrence of `b`. -/
def occursBefore (a b l : List Char) : Prop :=
  ∃ pre mid post, l = pre ++ a ++ mid ++ b ++ post

/-- Executable check for `occursBefore`. -/
def occursBeforeB (a b l : List Char) : Bool :=
  (List.range (l.length + 1)).any fun i =>
    a.isPrefixOf (l.drop i) && decide (b <:+: l.drop (i + a.length))

theorem occursBefore_iff (a b l : List Char) :
    occursBefore a b l ↔ occursBeforeB a b l = true := by
  constructor
  · rintro ⟨pre, mid, post, rfl⟩
    rw [occursBeforeB, List.any_eq_true]
    refine ⟨pre.length, List.mem_range.mpr ?_, ?_⟩
    · simp only [List.length_append]
      omega
    · have hdrop : (pre ++ a ++ mid ++ b ++ post).drop pre.length =
          a ++ (mid ++ b ++ post) := by
        have h1 : pre ++ a ++ mid ++ b ++ post = pre ++ (a ++ (mid ++ b ++ post)) := by
          simp [List.append_assoc]
        rw [h1, List.drop_left]
      have hdrop2 : (pre ++ a ++ mid ++ b ++ post).drop (pre.length + a.length) =
          mid ++ b ++ post := by
        have h1 : pre ++ a ++ mid ++ b ++ post = (pre ++ a) ++ (mid ++ b ++ post) := by
          simp [List.append_assoc]
        rw [h1, show pre.length + a.length = (pre ++ a).length by
          simp [List.length_append], List.drop_left]
      rw [Bool.and_eq_true, hdrop, hdrop2]
      constructor
      · exact List.isPrefixOf_iff_prefix.mpr (List.prefix_append a _)
      · exact decide_eq_true ⟨mid, post, by simp [List.append_assoc]⟩
  · intro h
    rw [occursBeforeB, List.any_eq_true] at h
    obtain ⟨i, _, hcond⟩ := h
    rw [Bool.and_eq_true] at hcond
    obtain ⟨hp, hinf⟩ := hcond
    obtain ⟨t, ht⟩ := List.isPrefixOf_iff_prefix.mp hp
    have hinf' : b <:+: l.drop (i + a.length) := of_decide_eq_true hinf
    obtain ⟨s, t', hst⟩ := hinf'
    have hdt : l.drop (i + a.length) = t := by
      have h1 : l.drop (i + a.length) = (l.drop i).drop a.length :=
        (List.drop_drop a.length i l).symm
      rw [h1, ← ht, List.drop_left]
    refine ⟨l.take i, s, t', ?_⟩
    calc l = l.take i ++ l.drop i := (List.take_append_drop i l).symm
      _ = l.take i ++ (a ++ t) := by rw [ht]
      _ = l.take i ++ (a ++ (s ++ b ++ t')) := by rw [← hdt, ← hst]
      _ = l.take i ++ a ++ s ++ b ++ t' := by simp [List.append_assoc]

/-! ## Claim theorems -/

/-- C3: for all token sequences and either equality mode, the engine emits ops
by backtracking from `(m, n)`: with both indices positive and tokens equal it
emits Unchanged and moves diagonally; otherwise when `i > 0` and (`j = 0` or
`L[i-1][j] ≥ L[i][j-1]`) it emits `Removed(base[i-1])` with `baseIndex i-1`;
otherwise `Added(updated[j-1])` with `updatedIndex j-1`.  Each op is appended
at the end, so the sequence is returned in forward document order, and the
`≥` tie-break prefers Removed. -/
theorem c3_backtracking_rule (eq : String → String → Bool) (bw uw : List String)
    (options : CompareOptions) (i j : Nat) :
    computeLCS bw uw options =
      backtrack (wordsEqual (options.ignoreCase.getD false)) bw uw
        bw.length uw.length ∧
    backtrack eq bw uw 0 0 = [] ∧
    backtrack eq bw uw (i + 1) 0 =
      backtrack eq bw uw i 0 ++
        [{ type := .removed, word := bw.getD i "", baseIndex := some i,
           updatedIndex := none }] ∧
    backtrack eq bw uw 0 (j + 1) =
      backtrack eq bw uw 0 j ++
        [{ type := .added, word := uw.getD j "", baseIndex := none,
           updatedIndex := some j }] ∧
    backtrack eq bw uw (i + 1) (j + 1) =
      (if eq (bw.getD i "") (uw.getD j "") then
        backtrack eq bw uw i j ++
          [{ type := .unchanged, word := bw.getD i "", baseIndex := some i,
             updatedIndex := some j }]
      else if lcsTable eq bw uw i (j + 1) ≥ lcsTable eq bw uw (i + 1) j then
        backtrack eq bw uw i (j + 1) ++
          [{ type := .removed, word := bw.getD i "", baseIndex := some i,
             updatedIndex := none }]
      else
        backtrack eq bw uw (i + 1) j ++
          [{ type := .added, word := uw.getD j "", baseIndex := none,
             updatedIndex := some j }]) :=
  ⟨rfl, rfl, rfl, rfl, rfl⟩

/-- C4: the number of Unchanged ops equals the length of the longest common
subsequence of the two token sequences under the chosen equality (witnessed
below as: some common subsequence of the normalized sequences has exactly that
length, and none is longer), and the script has exactly
`m - LCS` Removed and `n - LCS` Added ops (stated additively). -/
theorem c4_minimal_edit_script (bw uw : List String) (options : CompareOptions) :
    (∃ l : List String,
      l.length = countType (computeLCS bw uw options) .unchanged ∧
      List.Sublist l (bw.map (normalizeWord (options.ignoreCase.getD false))) ∧
      List.Sublist l (uw.map (normalizeWord (options.ignoreCase.getD false)))) ∧
    (∀ l : List String,
      List.Sublist l (bw.map (normalizeWord (options.ignoreCase.getD false))) →
      List.Sublist l (uw.map (normalizeWord (options.ignoreCase.getD false))) →
      l.length ≤ countType (computeLCS bw uw options) .unchanged) ∧
    countType (computeLCS bw uw options) .unchanged +
      countType (computeLCS bw uw options) .removed = bw.length ∧
    countType (computeLCS bw uw options) .unchanged +
      countType (computeLCS bw uw options) .added = uw.length := by
  obtain ⟨hcU, hcR, hcA⟩ :=
    backtrack_counts (wordsEqual (options.ignoreCase.getD false)) bw uw
      (bw.length + uw.length) bw.length uw.length le_rfl
  obtain ⟨hbs, hus, hlen⟩ :=
    backtrack_unchanged_sublist (options.ignoreCase.getD false) bw uw
      (bw.length + uw.length) bw.length uw.length le_rfl le_rfl le_rfl
  rw [List.take_length] at hbs hus
  refine ⟨⟨unchangedWordsNorm (options.ignoreCase.getD false)
      (computeLCS bw uw options), hlen, hbs, hus⟩, ?_, hcR, hcA⟩
  intro l hl1 hl2
  have hmax := lcsTable_max (options.ignoreCase.getD false) bw uw
    (bw.length + uw.length) bw.length uw.length le_rfl le_rfl le_rfl l
    (by rw [List.take_length]; exact hl1) (by rw [List.take_length]; exact hl2)
  calc l.length ≤ lcsTable (wordsEqual (options.ignoreCase.getD false)) bw uw
        bw.length uw.length := hmax
    _ = countType (computeLCS bw uw options) .unchanged := hcU.symm

theorem c4_minimal_edit_script_witness :
    List.Sublist ["b"] (["a", "b"].map (normalizeWord false)) ∧
    List.Sublist ["b"] (["b", "c"].map (normalizeWord false)) ∧
    ["b"].length ≤ countType (computeLCS ["a", "b"] ["b", "c"] {}) .unchanged :=
  ⟨by decide, by decide,
    (c4_minimal_edit_script ["a", "b"] ["b", "c"] {}).2.1 ["b"]
      (by decide) (by decide)⟩

/-- C5: `compareTexts` returns strictly increasing, duplicate-free position
lists, bounded by the respective token counts, and the removed/added list
lengths complement the unchanged-op count to the token counts. -/
theorem c5_position_invariants (baseText updatedText : String)
    (options : CompareOptions) :
    List.Pairwise (· < ·)
      (compareTexts baseText updatedText options).removedPositions ∧
    (compareTexts baseText updatedText options).removedPositions.Nodup ∧
    (∀ x ∈ (compareTexts baseText updatedText options).removedPositions,
      x < (tokenize baseText).length) ∧
    List.Pairwise (· < ·)
      (compareTexts baseText updatedText options).addedPositions ∧
    (compareTexts baseText updatedText options).addedPositions.Nodup ∧
    (∀ x ∈ (compareTexts baseText updatedText options).addedPositions,
      x < (tokenize updatedText).length) ∧
    (compareTexts baseText updatedText options).removedPositions.length +
      countType (computeLCS (tokenize baseText) (tokenize updatedText) options)
        .unchanged = (tokenize baseText).length ∧
    (compareTexts baseText updatedText options).addedPositions.length +
      countType (computeLCS (tokenize baseText) (tokenize updatedText) options)
        .unchanged = (tokenize updatedText).length := by
  obtain ⟨hrb, hrp, hrl, hab, hap, hal⟩ :=
    backtrack_positions (wordsEqual (options.ignoreCase.getD false))
      (tokenize baseText) (tokenize updatedText)
      ((tokenize baseText).length + (tokenize updatedText).length)
      (tokenize baseText).length (tokenize updatedText).length le_rfl
  obtain ⟨hcU, hcR, hcA⟩ :=
    backtrack_counts (wordsEqual (options.ignoreCase.getD false))
      (tokenize baseText) (tokenize updatedText)
      ((tokenize baseText).length + (tokenize updatedText).length)
      (tokenize baseText).length (tokenize updatedText).length le_rfl
  have hre : (compareTexts baseText updatedText options).removedPositions =
      removedPositionsOf (backtrack (wordsEqual (options.ignoreCase.getD false))
        (tokenize baseText) (tokenize updatedText)
        (tokenize baseText).length (tokenize updatedText).length) := rfl
  have hae : (compareTexts baseText updatedText options).addedPositions =
      addedPositionsOf (backtrack (wordsEqual (options.ignoreCase.getD false))
        (tokenize baseText) (tokenize updatedText)
        (tokenize baseText).length (tokenize updatedText).length) := rfl
  have hcl : countType
      (computeLCS (tokenize baseText) (tokenize updatedText) options) .unchanged =
      countType (backtrack (wordsEqual (options.ignoreCase.getD false))
        (tokenize baseText) (tokenize updatedText)
        (tokenize baseText).length (tokenize updatedText).length) .unchanged := rfl
  rw [hre, hae, hcl]
  exact ⟨hrp, List.Pairwise.imp Nat.ne_of_lt hrp, hrb, hap,
    List.Pairwise.imp Nat.ne_of_lt hap, hab, by omega, by omega⟩

theorem c5_position_invariants_witness :
    0 ∈ (compareTexts "cat and dog" "cat or dog" {}).removedPositions ∨
      (1 ∈ (compareTexts "cat and dog" "cat or dog" {}).removedPositions ∧
        1 < (tokenize "cat and dog").length) :=
  Or.inr ⟨by decide,
    (c5_position_invariants "cat and dog" "cat or dog" {}).2.2.1 1 (by decide)⟩

/-- C7: `ignoreCase` affects only the equality test: the documented concrete
behaviours hold, and every emitted op carries the original token text (looked
up verbatim, never case-folded, in the base list for removed/unchanged ops
and in the updated list for added ops). -/
theorem c7_ignore_case (bw uw : List String) (options : CompareOptions) :
    compareTexts "Hello World" "hello world" ⟨some true⟩ =
      ⟨[], []⟩ ∧
    compareTexts "Hello World" "hello world" {} = ⟨[0, 1], [0, 1]⟩ ∧
    compareTexts "Hello World" "hello world" ⟨some false⟩ =
      ⟨[0, 1], [0, 1]⟩ ∧
    ∀ c ∈ computeLCS bw uw options,
      (c.type = .removed →
        ∃ k, c.baseIndex = some k ∧ c.updatedIndex = none ∧
          bw[k]? = some c.word) ∧
      (c.type = .added →
        ∃ k, c.updatedIndex = some k ∧ c.baseIndex = none ∧
          uw[k]? = some c.word) ∧
      (c.type = .unchanged →
        ∃ k l, c.baseIndex = some k ∧ c.updatedIndex = some l ∧
          bw[k]? = some c.word) := by
  refine ⟨by decide, by decide, by decide, ?_⟩
  intro c hc
  obtain ⟨h1, h2, h3⟩ :=
    backtrack_words (wordsEqual (options.ignoreCase.getD false)) bw uw
      (bw.length + uw.length) bw.length uw.length le_rfl le_rfl le_rfl c hc
  refine ⟨?_, ?_, ?_⟩
  · intro ht
    obtain ⟨k, _, ha, hb, hw⟩ := h1 ht
    exact ⟨k, ha, hb, hw⟩
  · intro ht
    obtain ⟨k, _, ha, hb, hw⟩ := h2 ht
    exact ⟨k, ha, hb, hw⟩
  · intro ht
    obtain ⟨k, l, _, _, ha, hb, hw⟩ := h3 ht
    exact ⟨k, l, ha, hb, hw⟩

theorem c7_ignore_case_witness :
    unchangedChange ["Hello"] 0 0 ∈ computeLCS ["Hello"] ["hello"] ⟨some true⟩ ∧
    (unchangedChange ["Hello"] 0 0).type = ChangeType.unchanged ∧
    ∃ k l, (unchangedChange ["Hello"] 0 0).baseIndex = some k ∧
      (unchangedChange ["Hello"] 0 0).updatedIndex = some l ∧
      ["Hello"][k]? = some (unchangedChange ["Hello"] 0 0).word :=
  ⟨by decide, by decide,
    ((c7_ignore_case ["Hello"] ["hello"] ⟨some true⟩).2.2.2
      (unchangedChange ["Hello"] 0 0) (by decide)).2.2 rfl⟩

/-- C9: comparison and visualization are total over all strings (including
empty and whitespace-only inputs, which yield empty diffs); the markup
renderer fails exactly when the document capability is absent, with the
descriptive environment message, before any output is built, and succeeds
otherwise. -/
theorem c9_totality_and_environment (baseText updatedText : String)
    (copts : CompareOptions) (hopts : HtmlFormatOptions) :
    (∃ r : DiffResult, compareTexts baseText updatedText copts = r) ∧
    (∃ s : String, visualizeDiff baseText updatedText copts = s) ∧
    formatDiffAsHtml false baseText updatedText hopts =
      Except.error envErrorMessage ∧
    envErrorMessage =
      "formatDiffAsHtml requires a browser environment with document API. This function is not available in Node.js." ∧
    (∃ html : String,
      formatDiffAsHtml true baseText updatedText hopts = Except.ok html) ∧
    compareTexts "" "" {} = ⟨[], []⟩ ∧
    compareTexts "   " " \t\n " {} = ⟨[], []⟩ ∧
    visualizeDiff "" "" {} =
      "Base text (- = removed):\n\n\nUpdated text (+ = added):\n" :=
  ⟨⟨_, rfl⟩, ⟨_, rfl⟩, rfl, rfl, ⟨_, rfl⟩, by decide, by decide, by decide⟩

/-- C10: `visualizeDiff` yields the two fixed literal headers in order; the
base block renders each base token wrapped as `[-token]` exactly when its
index is a removed position (bare otherwise, one space after every token),
and the updated block analogously with `[+token]` and the added positions. -/
theorem c10_visualize_blocks (baseText updatedText : String)
    (options : CompareOptions) :
    ∃ baseBlock updatedBlock : String,
      visualizeDiff baseText updatedText options =
        "Base text (- = removed):\n" ++ baseBlock ++
          "\n\nUpdated text (+ = added):\n" ++ updatedBlock ∧
      baseBlock = String.join ((tokenize baseText).enum.map fun p =>
        if (compareTexts baseText updatedText options).removedPositions.contains
            p.1 then
          "[-" ++ p.2 ++ "] "
        else p.2 ++ " ") ∧
      updatedBlock = String.join ((tokenize updatedText).enum.map fun p =>
        if (compareTexts baseText updatedText options).addedPositions.contains
            p.1 then
          "[+" ++ p.2 ++ "] "
        else p.2 ++ " ") :=
  ⟨_, _, rfl, rfl, rfl⟩

theorem escapeChar_chars (c c' : Char) (h : c' ∈ (escapeChar c).data) :
    c' ≠ '<' ∧ c' ≠ '>' := by
  unfold escapeChar at h
  by_cases h1 : c == '&'
  · rw [if_pos h1] at h
    fin_cases h <;> exact ⟨by decide, by decide⟩
  · rw [if_neg h1] at h
    by_cases h2 : c == '<'
    · rw [if_pos h2] at h
      fin_cases h <;> exact ⟨by decide, by decide⟩
    · rw [if_neg h2] at h
      by_cases h3 : c == '>'
      · rw [if_pos h3] at h
        fin_cases h <;> exact ⟨by decide, by decide⟩
      · rw [if_neg h3] at h
        have hc : c' = c := by
          simpa [String.singleton] using h
        subst hc
        exact ⟨by simpa using h2, by simpa using h3⟩

theorem escapeHtml_chars (w : String) :
    ∀ c ∈ (escapeHtml w).data, c ≠ '<' ∧ c ≠ '>' := by
  rw [escapeHtml]
  generalize w.data = l
  induction l with
  | nil => intro c hc; simp [escapeList] at hc
  | cons x rest ih =>
    intro c hc
    rw [escapeList, String.data_append] at hc
    rcases List.mem_append.mp hc with hc | hc
    · exact escapeChar_chars x c hc
    · exact ih c hc

/-- C8: `sanitizeClassName` keeps exactly the characters in
`[A-Za-z0-9_- ]` (in order), and the class attribute of every styled span the
renderer emits is the sanitized configured class name — regardless of all
other style option values. -/
theorem c8_class_sanitization (s baseText updatedText : String)
    (options : HtmlFormatOptions) (cls : Option String) (bg : Option String)
    (lt : Bool) (w : String) :
    (sanitizeClassName s).data = s.data.filter (fun c =>
      c.isAlpha || c.isDigit || c == '-' || c == '_' || c == ' ') ∧
    (DomNode.span cls bg lt w ∈
        containerChildren
          (renderChange (mergeStyle defaultAddedStyle options.addedStyle)
            (mergeStyle defaultRemovedStyle options.removedStyle))
          (computeLCS (tokenize baseText) (tokenize updatedText)
            ⟨options.ignoreCase⟩) →
      cls = some (sanitizeClassName
          (mergeStyle defaultAddedStyle options.addedStyle).className) ∨
      cls = some (sanitizeClassName
          (mergeStyle defaultRemovedStyle options.removedStyle).className) ∨
      cls = none) := by
  refine ⟨rfl, ?_⟩
  intro hmem
  rcases containerChildren_mem _ _ _ hmem with h | ⟨c, _, h⟩
  · simp at h
  · cases hct : c.type with
    | added =>
      simp only [renderChange, hct, createStyledSpan] at h
      by_cases hcn : (mergeStyle defaultAddedStyle options.addedStyle).className ≠ ""
      · rw [if_pos hcn] at h
        simp only [DomNode.span.injEq] at h
        exact Or.inl (by rw [h.1])
      · rw [if_neg hcn] at h
        simp only [DomNode.span.injEq] at h
        exact Or.inr (Or.inr (by rw [h.1]))
    | removed =>
      simp only [renderChange, hct, createStyledSpan] at h
      by_cases hcn : (mergeStyle defaultRemovedStyle options.removedStyle).className ≠ ""
      · rw [if_pos hcn] at h
        simp only [DomNode.span.injEq] at h
        exact Or.inr (Or.inl (by rw [h.1]))
      · rw [if_neg hcn] at h
        simp only [DomNode.span.injEq] at h
        exact Or.inr (Or.inr (by rw [h.1]))
    | unchanged =>
      simp only [renderChange, hct] at h
      simp at h

theorem c8_class_sanitization_witness :
    (DomNode.span (some "badclass") (some "#FFB6C1") true "cat" ∈
      containerChildren
        (renderChange
          (mergeStyle defaultAddedStyle
            ({ className := some "bad<>class!" } : WordStyleOptions))
          (mergeStyle defaultRemovedStyle
            ({ className := some "bad<>class!" } : WordStyleOptions)))
        (computeLCS (tokenize "cat") (tokenize "dog") ⟨none⟩)) ∧
    (some "badclass" = some (sanitizeClassName
        (mergeStyle defaultAddedStyle
          ({ className := some "bad<>class!" } : WordStyleOptions)).className) ∨
      some "badclass" = some (sanitizeClassName
        (mergeStyle defaultRemovedStyle
          ({ className := some "bad<>class!" } : WordStyleOptions)).className) ∨
      (some "badclass" : Option String) = none) :=
  ⟨by decide,
    (c8_class_sanitization "x" "cat" "dog"
      { addedStyle := { className := some "bad<>class!" }
        removedStyle := { className := some "bad<>class!" } }
      (some "badclass") (some "#FFB6C1") true "cat").2 (by decide)⟩

set_option maxRecDepth 16384 in
/-- C6: token text reaches the output only through the text-node escaping
primitive — uniformly, a text node serializes to `escapeHtml` of its content
and a span's only content is `escapeHtml` of its token — and escaped text can
never contain a live `<` or `>`.  Concretely, a literal `<script>` tag is
emitted as `&lt;script&gt;` (and no `<script` survives), and the ampersand of
already-escaped-looking text such as `&lt;` is escaped again to `&amp;lt;`. -/
theorem c6_escaping (w : String) (cls : Option String) (bg : Option String)
    (lt : Bool) :
    (∀ c ∈ (escapeHtml w).data, c ≠ '<' ∧ c ≠ '>') ∧
    serializeNode (DomNode.text w) = escapeHtml w ∧
    (∃ openTag : String, serializeNode (DomNode.span cls bg lt w) =
      openTag ++ escapeHtml w ++ "</span>") ∧
    escapeHtml "<script>" = "&lt;script&gt;" ∧
    escapeHtml "&lt;" = "&amp;lt;" ∧
    (∃ out : String,
      formatDiffAsHtml true "<script>x</script>" "" {} = Except.ok out ∧
      List.IsInfix "&lt;script&gt;".data out.data ∧
      ¬ List.IsInfix "<script".data out.data) ∧
    (∃ out2 : String,
      formatDiffAsHtml true "&lt;" "" {} = Except.ok out2 ∧
      List.IsInfix "&amp;lt;".data out2.data) := by
  refine ⟨escapeHtml_chars w, rfl, ⟨_, rfl⟩, by decide, by decide,
    ⟨_, rfl, ?_, ?_⟩, ⟨_, rfl, ?_⟩⟩
  · decide
  · decide
  · decide

theorem c6_escaping_witness :
    '&' ∈ (escapeHtml "<").data ∧ '&' ≠ '<' ∧ '&' ≠ '>' :=
  ⟨by decide, (c6_escaping "<" none none false).1 '&' (by decide)⟩

theorem renderChangeShow_word_infix (A R : MergedStyle) (sa sr : Bool)
    (c : Change) :
    ∃ pre post : String,
      serializeNode (renderChangeShow A R sa sr c) =
        pre ++ escapeHtml c.word ++ post := by
  have htext : serializeNode (DomNode.text c.word) =
      "" ++ escapeHtml c.word ++ "" := by
    rw [String.empty_append, String.append_empty]
    rfl
  cases hct : c.type with
  | removed =>
    cases sr with
    | true =>
      simp only [renderChangeShow, hct]
      rw [if_pos trivial]
      exact ⟨_, _, rfl⟩
    | false =>
      simp only [renderChangeShow, hct]
      rw [if_neg (by simp)]
      exact ⟨"", "", htext⟩
  | added =>
    cases sa with
    | true =>
      simp only [renderChangeShow, hct]
      rw [if_pos trivial]
      exact ⟨_, _, rfl⟩
    | false =>
      simp only [renderChangeShow, hct]
      rw [if_neg (by simp)]
      exact ⟨"", "", htext⟩
  | unchanged =>
    simp only [renderChangeShow, hct]
    exact ⟨"", "", htext⟩

/-- C2 (spec-modelled): the renderer's `showAdded`/`showRemoved` flags default
to `true` (the default-flag rendering coincides with the snapshot renderer's
always-styled output), a suppressed kind is emitted as a bare text node
carrying the token (no styled element), and the escaped token text of every
change still appears in the rendered output whatever the flags. -/
theorem c2_show_flags (documentDefined : Bool) (baseText updatedText : String)
    (ic : Option Bool) (addedOpts removedOpts : WordStyleOptions)
    (A R : MergedStyle) (sFlag : Bool) (c : Change) :
    formatDiffAsHtmlShow documentDefined baseText updatedText
        ⟨ic, addedOpts, removedOpts, none, none⟩ =
      formatDiffAsHtmlShow documentDefined baseText updatedText
        ⟨ic, addedOpts, removedOpts, some true, some true⟩ ∧
    formatDiffAsHtmlShow documentDefined baseText updatedText
        ⟨ic, addedOpts, removedOpts, some true, some true⟩ =
      formatDiffAsHtml documentDefined baseText updatedText
        ⟨ic, addedOpts, removedOpts⟩ ∧
    (c.type = .removed →
      renderChangeShow A R sFlag false c = DomNode.text c.word) ∧
    (c.type = .added →
      renderChangeShow A R false sFlag c = DomNode.text c.word) ∧
    (∀ (sa sr : Option Bool) (html : String),
      formatDiffAsHtmlShow true baseText updatedText
          ⟨ic, addedOpts, removedOpts, sa, sr⟩ = Except.ok html →
      ∀ ch ∈ computeLCS (tokenize baseText) (tokenize updatedText) ⟨ic⟩,
        List.IsInfix (escapeHtml ch.word).data html.data) := by
  have hfun : renderChangeShow (mergeStyle defaultAddedStyle addedOpts)
      (mergeStyle defaultRemovedStyle removedOpts) true true =
      renderChange (mergeStyle defaultAddedStyle addedOpts)
        (mergeStyle defaultRemovedStyle removedOpts) := by
    funext ch
    cases hct : ch.type <;> simp [renderChangeShow, renderChange, hct]
  refine ⟨rfl, ?_, ?_, ?_, ?_⟩
  · cases documentDefined with
    | false => rfl
    | true => simp [formatDiffAsHtmlShow, formatDiffAsHtml, hfun]
  · intro ht
    simp [renderChangeShow, ht]
  · intro ht
    simp [renderChangeShow, ht]
  · intro sa sr html hok ch hch
    have hok' : Except.ok (innerHTML (containerChildren
        (renderChangeShow (mergeStyle defaultAddedStyle addedOpts)
          (mergeStyle defaultRemovedStyle removedOpts)
          (sa.getD true) (sr.getD true))
        (computeLCS (tokenize baseText) (tokenize updatedText) ⟨ic⟩))) =
        Except.ok html := hok
    have hhtml := (Except.ok.inj hok').symm
    rw [hhtml, innerHTML_containerChildren]
    obtain ⟨pre, post, hdec⟩ := joinSep_mem _ _
      (List.mem_map_of_mem (fun ch' => serializeNode
        (renderChangeShow (mergeStyle defaultAddedStyle addedOpts)
          (mergeStyle defaultRemovedStyle removedOpts)
          (sa.getD true) (sr.getD true) ch')) hch)
    simp only [] at hdec
    rw [hdec]
    obtain ⟨p2, q2, hseg⟩ := renderChangeShow_word_infix
      (mergeStyle defaultAddedStyle addedOpts)
      (mergeStyle defaultRemovedStyle removedOpts)
      (sa.getD true) (sr.getD true) ch
    rw [hseg]
    refine ⟨pre.data ++ p2.data, q2.data ++ post.data, ?_⟩
    simp [String.data_append, List.append_assoc]

theorem c2_show_flags_witness :
    (removedChange ["a", "b"] 1 ∈
      computeLCS (tokenize "a b") (tokenize "a c") ⟨none⟩) ∧
    ∃ html : String,
      formatDiffAsHtmlShow true "a b" "a c" ⟨none, {}, {}, none, some false⟩ =
        Except.ok html ∧
      List.IsInfix (escapeHtml (removedChange ["a", "b"] 1).word).data
        html.data :=
  ⟨by decide, _, rfl,
    (c2_show_flags true "a b" "a c" none {} {} defaultAddedStyle
        defaultRemovedStyle true (removedChange ["a", "b"] 1)).2.2.2.2
      none (some false) _ rfl (removedChange ["a", "b"] 1) (by decide)⟩

/-- A style configuration producing attribute-free spans (all styling
switched off, empty class name). -/
def plainStyle : WordStyleOptions :=
  { applyHighlighting := some false, className := some "",
    applyLineThrough := some false }

/-- C1 counterexample: at input `("cat", "dog")` the alignment sequence is an
Added op immediately followed by a Removed op (a replacement, so a Removed op
is adjacent to an Added op), yet the rendered output never shows the old
token `cat` before the new token `dog`: the renderer emits the new token
first, refuting "old token(s) before new token(s)". -/
theorem c1_counterexample :
    computeLCS (tokenize "cat") (tokenize "dog") ⟨none⟩ =
      [addedChange ["dog"] 0, removedChange ["cat"] 0] ∧
    ∃ out : String,
      formatDiffAsHtml true "cat" "dog"
        { addedStyle := plainStyle, removedStyle := plainStyle } =
        Except.ok out ∧
      ¬ occursBefore "cat".data "dog".data out.data ∧
      occursBefore "dog".data "cat".data out.data := by
  refine ⟨by decide, _, rfl, ?_, ?_⟩
  · rw [occursBefore_iff]
    decide
  · rw [occursBefore_iff]
    decide

/-- C1 (amended): the renderer consumes the alignment ops in order, so any
two adjacent ops are rendered adjacently (separated by one space) in the
op order — the relative order is preserved verbatim, not grouped by side —
and in a replacement the Added op precedes the Removed op: a Removed op is
never immediately followed by an Added op. -/
theorem c1_replacement_order (baseText updatedText : String)
    (options : HtmlFormatOptions) (k : Nat) (c c' : Change) (html : String)
    (hok : formatDiffAsHtml true baseText updatedText options = Except.ok html)
    (hc : (computeLCS (tokenize baseText) (tokenize updatedText)
      ⟨options.ignoreCase⟩)[k]? = some c)
    (hc' : (computeLCS (tokenize baseText) (tokenize updatedText)
      ⟨options.ignoreCase⟩)[k + 1]? = some c') :
    (∃ pre post : String,
      html = pre ++
        serializeNode (renderChange
          (mergeStyle defaultAddedStyle options.addedStyle)
          (mergeStyle defaultRemovedStyle options.removedStyle) c) ++ " " ++
        serializeNode (renderChange
          (mergeStyle defaultAddedStyle options.addedStyle)
          (mergeStyle defaultRemovedStyle options.removedStyle) c') ++ post) ∧
    ¬(c.type = .removed ∧ c'.type = .added) := by
  constructor
  · have hok' : Except.ok (innerHTML (containerChildren
        (renderChange (mergeStyle defaultAddedStyle options.addedStyle)
          (mergeStyle defaultRemovedStyle options.removedStyle))
        (computeLCS (tokenize baseText) (tokenize updatedText)
          ⟨options.ignoreCase⟩))) = Except.ok html := hok
    have hhtml := (Except.ok.inj hok').symm
    rw [hhtml, innerHTML_containerChildren]
    have hmc : ((computeLCS (tokenize baseText) (tokenize updatedText)
        ⟨options.ignoreCase⟩).map fun x => serializeNode (renderChange
          (mergeStyle defaultAddedStyle options.addedStyle)
          (mergeStyle defaultRemovedStyle options.removedStyle) x))[k]? =
        some (serializeNode (renderChange
          (mergeStyle defaultAddedStyle options.addedStyle)
          (mergeStyle defaultRemovedStyle options.removedStyle) c)) := by
      rw [List.getElem?_map, hc]
      rfl
    have hmc' : ((computeLCS (tokenize baseText) (tokenize updatedText)
        ⟨options.ignoreCase⟩).map fun x => serializeNode (renderChange
          (mergeStyle defaultAddedStyle options.addedStyle)
          (mergeStyle defaultRemovedStyle options.removedStyle) x))[k + 1]? =
        some (serializeNode (renderChange
          (mergeStyle defaultAddedStyle options.addedStyle)
          (mergeStyle defaultRemovedStyle options.removedStyle) c')) := by
      rw [List.getElem?_map, hc']
      rfl
    exact joinSep_adjacent _ k _ _ hmc hmc'
  · have hchain : List.Chain' notRemAdd
        (computeLCS (tokenize baseText) (tokenize updatedText)
          ⟨options.ignoreCase⟩) :=
      backtrack_chain (wordsEqual ((options.ignoreCase : Option Bool).getD false))
        (tokenize baseText) (tokenize updatedText)
        ((tokenize baseText).length + (tokenize updatedText).length)
        (tokenize baseText).length (tokenize updatedText).length le_rfl
    obtain ⟨hlen', hval'⟩ := List.getElem?_eq_some.mp hc'
    obtain ⟨hlen, hval⟩ := List.getElem?_eq_some.mp hc
    have hR := List.chain'_iff_get.mp hchain k (by omega)
    simpa [notRemAdd, List.get_eq_getElem, hval, hval'] using hR

set_option maxRecDepth 16384 in
theorem c1_replacement_order_witness :
    (formatDiffAsHtml true "cat" "dog" {} =
      Except.ok ((formatDiffAsHtml true "cat" "dog" {}).toOption.getD "")) ∧
    ((computeLCS (tokenize "cat") (tokenize "dog") ⟨none⟩)[0]? =
      some (addedChange ["dog"] 0)) ∧
    ((computeLCS (tokenize "cat") (tokenize "dog") ⟨none⟩)[1]? =
      some (removedChange ["cat"] 0)) ∧
    ¬((addedChange ["dog"] 0).type = .removed ∧
      (removedChange ["cat"] 0).type = .added) :=
  ⟨by decide, by decide, by decide,
    (c1_replacement_order "cat" "dog" {} 0 (addedChange ["dog"] 0)
      (removedChange ["cat"] 0)
      ((formatDiffAsHtml true "cat" "dog" {}).toOption.getD "")
      (by decide) (by decide) (by decide)).2⟩
